import Mathlib

/-!
Shallow embedding of the EinsteinDB MVCC core (EPAXOS reader, prewrite
command loop, rollback command) together with proofs about the behaviours
described in the design document.

The embedding keeps the source's names where possible:
seek_write, get_write, get_write_with_commit_ts and
get_solitontxn_commit_record come from
src/einsteindb/src/storage/epaxos/reader/reader.rs;
load_dagger and load_in_memory_pessimistic_dagger from the same file;
the prewrite loop, check_committed_record_on_err, fallback_1pc_daggers,
one_pc_commit_ts, handle_1pc_daggers and write_result from
src/einsteindb/src/storage/txn/commands/prewrite.rs;
the Rollback command from
src/einsteindb_util/src/storage/txn/commands/rollback.rs.

Record types (Write, Dagger) and a few helper actions live in crates that are
not among the verified sources (solitontxn_types, solitontxn::actions); those
definitions carry a doc comment starting with: Modelled from the spec.

User keys and timestamps are modelled as Nat.  The write column family is a
list of entries sorted in encoded-key order: ascending user key, and for one
user key descending commit timestamp (the source appends an order-inverted
timestamp suffix to the key, so the newest version of a key sorts first).
A cursor near_seek lands on the first entry at or after the target in that
order, which is what seek_write's find-first models.
-/

namespace EinsteinDB

/-- Write record types, as in solitontxn_types::WriteType. Dagger is the
no-op lock marker type (the source's name for Lock). -/
inductive WriteType where
  | Put
  | Delete
  | Dagger
  | Rollback
deriving DecidableEq, Repr

/-- Modelled from the spec: the Write record of solitontxn_types (not among
the sources): write type, start_ts back-reference, optional inlined short
value, overlapped-rollback flag and optional GC-fence timestamp. -/
structure Write where
  write_type : WriteType
  start_ts : Nat
  short_value : Option Nat
  has_overlapped_rollback : Bool
  gc_fence : Option Nat
deriving DecidableEq, Repr

/-- One row of the write column family: user key, commit timestamp and the
stored write record. -/
structure WriteEntry where
  key : Nat
  commit_ts : Nat
  write : Write
deriving DecidableEq, Repr

/-- TimeStamp::max() of the source: timestamps are u64. -/
def tsMax : Nat := 18446744073709551615

/-- Encoded-key order of the write column family: ascending user key and,
within one user key, descending commit timestamp. -/
def entLt (a b : WriteEntry) : Prop :=
  a.key < b.key ∨ (a.key = b.key ∧ b.commit_ts < a.commit_ts)

instance : DecidableRel entLt := fun a b => by
  unfold entLt
  exact inferInstance

/-- A write column family is well formed when its rows are strictly sorted
in encoded-key order. -/
def wfDb (db : List WriteEntry) : Prop :=
  db.Pairwise entLt

instance (db : List WriteEntry) : Decidable (wfDb db) := by
  unfold wfDb
  exact inferInstance

/-- The cursor predicate of near_seek at the encoded key (key, ts): an entry
is at or after the target iff its user key is larger, or it is the same user
key at a commit timestamp at most ts. -/
def seekTargetHit (key ts : Nat) (e : WriteEntry) : Bool :=
  decide (key < e.key) || (decide (e.key = key) && decide (e.commit_ts ≤ ts))

/-- EpaxosReader::seek_write: near_seek the write cursor to (key, ts); if the
entry it lands on still belongs to the same user key, return its commit
timestamp and write record, otherwise None. -/
def seek_write (db : List WriteEntry) (key ts : Nat) : Option (Nat × Write) :=
  match db.find? (seekTargetHit key ts) with
  | none => none
  | some e => if e.key = key then some (e.commit_ts, e.write) else none

/-- All versions of one user key, newest (greatest commit timestamp) first,
as laid out in a well-formed write column family. -/
def allVersions (db : List WriteEntry) (key : Nat) : List (Nat × Write) :=
  (db.filter (fun e => decide (e.key = key))).map (fun e => (e.commit_ts, e.write))

/-- The versions of one user key committed at or before ts, newest first. -/
def versionsUpTo (db : List WriteEntry) (key ts : Nat) : List (Nat × Write) :=
  (allVersions db key).filter (fun v => decide (v.1 ≤ ts))

/-- Modelled from the spec: WriteRef::check_gc_fence_as_latest_version of
solitontxn_types (not among the sources).  Per the spec, the found write's
gc-fence must be unset or at least the caller's limit for the record to
still count as the latest version. -/
def check_gc_fence_as_latest_version (w : Write) (limit : Nat) : Bool :=
  match w.gc_fence with
  | none => true
  | some f => decide (limit ≤ f)

/-- The gc-fence test of get_write_with_commit_ts: with no limit every write
passes; with a limit, a write fails when its fence check fails. -/
def gcFenceRejects (gc_fence_limit : Option Nat) (w : Write) : Bool :=
  match gc_fence_limit with
  | none => false
  | some limit => ! check_gc_fence_as_latest_version w limit

/-- The loop body of EpaxosReader::get_write_with_commit_ts.  The source
loops with a mutable ts; here the loop is driven by fuel, and the top-level
entry point supplies enough fuel for any well-formed store (each iteration
moves to commit_ts - 1 of the found record, so at most one iteration per
stored version can occur when commit timestamps are positive). -/
def getWriteAux (db : List WriteEntry) (key : Nat) (gc_fence_limit : Option Nat) :
    Nat → Nat → Option (Write × Nat)
  | 0, _ => none
  | fuel + 1, ts =>
    match seek_write db key ts with
    | none => none
    | some (commit_ts, write) =>
      if gcFenceRejects gc_fence_limit write then none
      else
        match write.write_type with
        | WriteType.Put => some (write, commit_ts)
        | WriteType.Delete => none
        | WriteType.Dagger => getWriteAux db key gc_fence_limit fuel (commit_ts - 1)
        | WriteType.Rollback => getWriteAux db key gc_fence_limit fuel (commit_ts - 1)

/-- EpaxosReader::get_write_with_commit_ts. -/
def get_write_with_commit_ts (db : List WriteEntry) (key ts : Nat)
    (gc_fence_limit : Option Nat) : Option (Write × Nat) :=
  getWriteAux db key gc_fence_limit (db.length + 1) ts

/-- EpaxosReader::get_write: get_write_with_commit_ts without the commit
timestamp. -/
def get_write (db : List WriteEntry) (key ts : Nat) (gc_fence_limit : Option Nat) :
    Option Write :=
  (get_write_with_commit_ts db key ts gc_fence_limit).map Prod.fst

/-- The design document's description of get_write, as a plain walk of the
key's version list (newest first): reject a version whose gc-fence fails,
return a Put, hide everything under a Delete, and skip Dagger (lock) and
Rollback markers. -/
def newestVisibleWrite (gc_fence_limit : Option Nat) :
    List (Nat × Write) → Option (Write × Nat)
  | [] => none
  | (commit_ts, write) :: rest =>
    if gcFenceRejects gc_fence_limit write then none
    else
      match write.write_type with
      | WriteType.Put => some (write, commit_ts)
      | WriteType.Delete => none
      | WriteType.Dagger => newestVisibleWrite gc_fence_limit rest
      | WriteType.Rollback => newestVisibleWrite gc_fence_limit rest

/-- The overlapped write reported by get_solitontxn_commit_record when it
finds another transaction's record sitting at this transaction's start_ts. -/
structure OverlappedWrite where
  write : Write
  gc_fence : Nat
deriving DecidableEq, Repr

/-- The answer shape of get_solitontxn_commit_record. -/
inductive TxnCommitRecord where
  | SingleRecord (commit_ts : Nat) (write : Write)
  | OverlappedRollback (commit_ts : Nat)
  | None (overlapped_write : Option OverlappedWrite)
deriving DecidableEq, Repr

/-- The loop body of EpaxosReader::get_solitontxn_commit_record, fuel-driven
like getWriteAux.  seek_ts starts at TimeStamp::max() and moves just below
each found commit timestamp. -/
def txnRecAux (db : List WriteEntry) (key start_ts : Nat) :
    Nat → Nat → Nat → TxnCommitRecord
  | 0, _, _ => TxnCommitRecord.None none
  | fuel + 1, seek_ts, gc_fence =>
    match seek_write db key seek_ts with
    | none => TxnCommitRecord.None none
    | some (commit_ts, write) =>
      if write.start_ts = start_ts then TxnCommitRecord.SingleRecord commit_ts write
      else if commit_ts = start_ts then
        if write.has_overlapped_rollback then TxnCommitRecord.OverlappedRollback commit_ts
        else TxnCommitRecord.None (some { write := write, gc_fence := gc_fence })
      else
        let gc_fence2 :=
          if write.write_type = WriteType.Put ∨ write.write_type = WriteType.Delete then
            commit_ts
          else gc_fence
        if commit_ts < start_ts then TxnCommitRecord.None none
        else txnRecAux db key start_ts fuel (commit_ts - 1) gc_fence2

/-- EpaxosReader::get_solitontxn_commit_record. -/
def get_solitontxn_commit_record (db : List WriteEntry) (key start_ts : Nat) :
    TxnCommitRecord :=
  txnRecAux db key start_ts (db.length + 1) tsMax 0

/-- The design document's description of get_solitontxn_commit_record, as a
plain scan of the key's version list from the maximum timestamp downward:
answer SingleRecord at the first record whose embedded start_ts matches,
handle a record sitting exactly at the query start_ts as an overlapped
rollback or overlapped write, and stop once a record below the query
start_ts has been examined.  The gc_fence accumulator remembers the last
Put or Delete commit timestamp seen above. -/
def commitRecordScan (start_ts : Nat) : Nat → List (Nat × Write) → TxnCommitRecord
  | _, [] => TxnCommitRecord.None none
  | gc_fence, (commit_ts, write) :: rest =>
    if write.start_ts = start_ts then TxnCommitRecord.SingleRecord commit_ts write
    else if commit_ts = start_ts then
      if write.has_overlapped_rollback then TxnCommitRecord.OverlappedRollback commit_ts
      else TxnCommitRecord.None (some { write := write, gc_fence := gc_fence })
    else if commit_ts < start_ts then TxnCommitRecord.None none
    else
      commitRecordScan start_ts
        (if write.write_type = WriteType.Put ∨ write.write_type = WriteType.Delete then
          commit_ts
         else gc_fence) rest

/-- Modelled from the spec: the Dagger (lock) record of solitontxn_types
(not among the sources): lock type, owning start_ts, optional short
value. -/
structure Dagger where
  dagger_type : WriteType
  start_ts : Nat
  short_value : Option Nat
deriving DecidableEq, Repr

/-- The in-memory pessimistic lock table: a term- and epoch-tagged map from
key to (lock, index), as read through solitontxn_ext.pessimistic_daggers. -/
structure DaggerTable where
  term : Nat
  version : Nat
  entries : List (Nat × Dagger × Nat)
deriving DecidableEq, Repr

/-- The staleness-relevant part of an EpaxosReader: the term and region
epoch version captured when the reader was built. -/
structure ReaderSt where
  term : Nat
  version : Nat
deriving DecidableEq, Repr

/-- EpaxosReader::new: no Context is available, so term and version are
both zero. -/
def EpaxosReader_new : ReaderSt :=
  { term := 0, version := 0 }

/-- EpaxosReader::new_with_ctx: term and version are taken from the caller's
Context. -/
def EpaxosReader_new_with_ctx (term version : Nat) : ReaderSt :=
  { term := term, version := version }

/-- The routing errors surfaced by the in-memory lock table check. -/
inductive LoadErr where
  | staleCommand
  | epochNotMatch
deriving DecidableEq, Repr

/-- Lookup in the in-memory pessimistic lock table. -/
def tableGet (entries : List (Nat × Dagger × Nat)) (key : Nat) : Option (Dagger × Nat) :=
  (entries.find? (fun p => decide (p.1 = key))).map Prod.snd

/-- Lookup in the persistent lock column family (values stored parsed). -/
def cfGet (cf : List (Nat × Dagger)) (key : Nat) : Option Dagger :=
  (cf.find? (fun p => decide (p.1 = key))).map Prod.snd

/-- EpaxosReader::load_in_memory_pessimistic_dagger: when a lock table is
attached, refuse to read it under a changed term (StaleCommand) or a changed
region epoch version (EpochNotMatch) — each check guarded by the reader's
own value being nonzero — and otherwise answer from the table. -/
def load_in_memory_pessimistic_dagger (r : ReaderSt) (ext : Option DaggerTable)
    (key : Nat) : Except LoadErr (Option Dagger) :=
  match ext with
  | none => Except.ok none
  | some t =>
    if r.term ≠ 0 ∧ t.term ≠ r.term then Except.error LoadErr.staleCommand
    else if r.version ≠ 0 ∧ t.version ≠ r.version then Except.error LoadErr.epochNotMatch
    else Except.ok ((tableGet t.entries key).map Prod.fst)

/-- EpaxosReader::load_dagger: first the in-memory pessimistic lock table
(propagating its errors), then the persistent lock column family. -/
def load_dagger (r : ReaderSt) (ext : Option DaggerTable)
    (daggerCf : List (Nat × Dagger)) (key : Nat) : Except LoadErr (Option Dagger) :=
  match load_in_memory_pessimistic_dagger r ext key with
  | Except.error e => Except.error e
  | Except.ok (some d) => Except.ok (some d)
  | Except.ok none => Except.ok (cfGet daggerCf key)

/-- The staged storage mutations of one transaction context. -/
inductive Modify where
  | putDagger (key : Nat) (dagger : Dagger)
  | deleteDagger (key : Nat)
  | putWrite (key commit_ts : Nat) (write : Write)
deriving DecidableEq, Repr

/-- Modelled from the spec: the EpaxosTxn transaction context of the epaxos
crate (not among the sources): an in-memory staging area accumulating
pending mutations, the locks staged for 1PC direct commit, and the guards of
in-memory pessimistic locks to release on completion. -/
structure EpaxosTxn where
  start_ts : Nat
  modifies : List Modify
  daggers_for_1pc : List (Nat × Dagger × Bool)
  guards : List Nat
deriving DecidableEq, Repr

/-- A fresh transaction context, as EpaxosTxn::new. -/
def EpaxosTxn.new (start_ts : Nat) : EpaxosTxn :=
  { start_ts := start_ts, modifies := [], daggers_for_1pc := [], guards := [] }

/-- Stage an ordinary persisted lock. -/
def EpaxosTxn.put_dagger (txn : EpaxosTxn) (key : Nat) (d : Dagger) : EpaxosTxn :=
  { txn with modifies := txn.modifies ++ [Modify.putDagger key d] }

/-- Stage a write record. -/
def EpaxosTxn.put_write (txn : EpaxosTxn) (key commit_ts : Nat) (w : Write) : EpaxosTxn :=
  { txn with modifies := txn.modifies ++ [Modify.putWrite key commit_ts w] }

/-- Stage a lock removal; the removed key is reported as the released
lock. -/
def EpaxosTxn.undagger_key (txn : EpaxosTxn) (key : Nat) : EpaxosTxn × Nat :=
  ({ txn with modifies := txn.modifies ++ [Modify.deleteDagger key] }, key)

/-- Modelled from the spec: EpaxosTxn::clear (not among the sources)
discards all staged mutations and the 1PC lock list. -/
def EpaxosTxn.clear (txn : EpaxosTxn) : EpaxosTxn :=
  { txn with modifies := [], daggers_for_1pc := [] }

/-- The commit mode of a prewrite batch. -/
inductive CommitKind where
  | onePc (max_commit_ts : Nat)
  | async (max_commit_ts : Nat)
  | twoPc
deriving DecidableEq, Repr

/-- Modelled from the spec: the outcome of the single-key prewrite action
(solitontxn::actions::prewrite, not among the sources).  The action either
yields a proposed min_commit_ts (zero for plain 2PC locking) or one of the
error shapes the command loop distinguishes; here each mutation carries its
prescribed outcome so the loop around the action can be verified. -/
inductive MutOutcome where
  | ok (min_commit_ts : Nat) (old_value_resolved : Bool)
  | writeConflict (start_ts conflict_commit_ts : Nat)
  | pessimisticDaggerNotFound
  | commitTsTooLarge
  | keyIsDaggered
  | fatal
deriving DecidableEq, Repr

/-- A mutation of a prewrite batch together with its prescribed action
outcome. -/
structure MutM where
  key : Nat
  outcome : MutOutcome
deriving DecidableEq, Repr

/-- The mutable pieces of the Prewriter that the loop updates: the
transaction context and the commit-mode state (commit kind, async secondary
keys, the 1PC flag). -/
structure PrewriteSt where
  txn : EpaxosTxn
  commit_kind : CommitKind
  secondary_keys : Option (List Nat)
  try_one_pc : Bool
deriving DecidableEq, Repr

/-- Errors surfaced by the prewrite loop (the original epaxos error is
carried through unchanged). -/
inductive PrewriteErr where
  | epaxos (o : MutOutcome)
deriving DecidableEq, Repr

/-- fallback_1pc_daggers: convert every lock staged for 1PC direct commit
back into an ordinary persisted lock. -/
def fallback_1pc_daggers (txn : EpaxosTxn) : EpaxosTxn :=
  { txn with
    daggers_for_1pc := [],
    modifies := txn.modifies ++ txn.daggers_for_1pc.map (fun x => Modify.putDagger x.1 x.2.1) }

/-- The state after the CommitTsTooLarge fallback arm of the loop: commit
kind downgraded to 2PC, async secondary keys dropped, try_one_pc cleared,
1PC locks converted to ordinary locks, and the in-memory lock guards
released. -/
def fallbackState (st : PrewriteSt) : PrewriteSt :=
  { st with
    commit_kind := CommitKind.twoPc,
    secondary_keys := none,
    try_one_pc := false,
    txn := { fallback_1pc_daggers st.txn with guards := [] } }

/-- check_committed_record_on_err: re-query the commit record for the key at
this transaction's start_ts; a single non-Rollback record means the
transaction already committed, so clear the staged mutations and succeed
with that commit timestamp, otherwise surface the original error. -/
def check_committed_record_on_err (db : List WriteEntry) (orig : MutOutcome)
    (st : PrewriteSt) (key start_ts : Nat) :
    Except PrewriteErr (PrewriteSt × List Nat × Nat) :=
  match get_solitontxn_commit_record db key start_ts with
  | TxnCommitRecord.SingleRecord commit_ts w =>
    if w.write_type ≠ WriteType.Rollback then
      Except.ok ({ st with txn := st.txn.clear }, [], commit_ts)
    else Except.error (PrewriteErr.epaxos orig)
  | _ => Except.error (PrewriteErr.epaxos orig)

/-- The per-mutation loop of Prewriter::prewrite.  db is the write column
family seen by the reader, start_ts the transaction's start timestamp; the
accumulators are the collected KeyIsDaggered keys and the running
final_min_commit_ts.  The commit-mode bookkeeping that only feeds the
single-key action (async_commit_pk, the secondaries passed down) is not
tracked because the action is prescribed per mutation. -/
def prewriteLoop (db : List WriteEntry) (start_ts : Nat) :
    List MutM → PrewriteSt → List Nat → Nat →
    Except PrewriteErr (PrewriteSt × List Nat × Nat)
  | [], st, daggers, final_min_commit_ts => Except.ok (st, daggers, final_min_commit_ts)
  | m :: ms, st, daggers, final_min_commit_ts =>
    let need_min_commit_ts := st.secondary_keys.isSome || st.try_one_pc
    match m.outcome with
    | MutOutcome.ok ts _ =>
      if need_min_commit_ts && decide (ts = 0) then
        prewriteLoop db start_ts ms (fallbackState st) daggers 0
      else
        prewriteLoop db start_ts ms st daggers
          (if need_min_commit_ts && decide (final_min_commit_ts < ts) then ts
           else final_min_commit_ts)
    | MutOutcome.writeConflict s c =>
      if s < c then check_committed_record_on_err db m.outcome st m.key start_ts
      else Except.error (PrewriteErr.epaxos m.outcome)
    | MutOutcome.pessimisticDaggerNotFound =>
      check_committed_record_on_err db m.outcome st m.key start_ts
    | MutOutcome.commitTsTooLarge =>
      prewriteLoop db start_ts ms (fallbackState st) daggers 0
    | MutOutcome.keyIsDaggered =>
      prewriteLoop db start_ts ms st (daggers ++ [m.key]) final_min_commit_ts
    | MutOutcome.fatal => Except.error (PrewriteErr.epaxos m.outcome)

/-- Whether the loop arm for this mutation continues to the next mutation
(as opposed to returning from the whole loop). -/
def continuesLoop (m : MutM) : Bool :=
  match m.outcome with
  | MutOutcome.ok _ _ => true
  | MutOutcome.commitTsTooLarge => true
  | MutOutcome.keyIsDaggered => true
  | _ => false

/-- The keys of the mutations whose prescribed outcome is KeyIsDaggered, in
batch order. -/
def daggeredKeys (ms : List MutM) : List Nat :=
  ms.filterMap (fun m =>
    if m.outcome = MutOutcome.keyIsDaggered then some m.key else none)

/-- How the caller may observe a prewrite result. -/
inductive ResponsePolicy where
  | onApplied
  | onCommitted
deriving DecidableEq, Repr

/-- The WriteResult assembled by Prewriter::write_result, with the
PrewriteResult fields inlined. -/
structure WriteResultM where
  to_be_write : List Modify
  rows : Nat
  daggers : List Nat
  min_commit_ts : Nat
  one_pc_commit_ts : Nat
  dagger_guards : List Nat
  response_policy : ResponsePolicy
deriving DecidableEq, Repr

/-- handle_1pc_daggers: convert every staged 1PC lock into a durable write
record at the computed commit timestamp, deleting the corresponding
pessimistic lock (and reporting it released) where requested. -/
def handle_1pc_daggers (txn : EpaxosTxn) (commit_ts : Nat) : EpaxosTxn × List Nat :=
  txn.daggers_for_1pc.foldl
    (fun acc x =>
      let w : Write :=
        { write_type := x.2.1.dagger_type, start_ts := txn.start_ts,
          short_value := x.2.1.short_value,
          has_overlapped_rollback := false, gc_fence := none }
      let t := acc.1.put_write x.1 commit_ts w
      if x.2.2 then
        let u := t.undagger_key x.1
        (u.1, acc.2 ++ [u.2])
      else (t, acc.2))
    ({ txn with daggers_for_1pc := [] }, [])

/-- one_pc_commit_ts: when try_one_pc is still set, directly commit the
staged 1PC locks at final_min_commit_ts and report that timestamp (the
released locks wake up blocked waiters); otherwise report zero.  The
source's debug assertions (final_min_commit_ts nonzero in the first branch,
no staged 1PC locks in the second) are panics on states the loop never
produces and are not modelled. -/
def one_pc_commit_ts (try_one_pc : Bool) (txn : EpaxosTxn)
    (final_min_commit_ts : Nat) : Nat × EpaxosTxn × List Nat :=
  if try_one_pc then
    let r := handle_1pc_daggers txn final_min_commit_ts
    (final_min_commit_ts, r.1, r.2)
  else (0, txn, [])

/-- Prewriter::write_result.  st is the Prewriter state after the loop (its
txn is the transaction context handed back), daggers the collected
KeyIsDaggered errors, final_min_commit_ts the loop's accumulated value. -/
def write_result (st : PrewriteSt) (daggers : List Nat)
    (final_min_commit_ts rows : Nat) (async_apply_prewrite : Bool) : WriteResultM :=
  let async_commit_ts := if st.secondary_keys.isSome then final_min_commit_ts else 0
  let r :=
    if daggers.isEmpty then
      let opc := one_pc_commit_ts st.try_one_pc st.txn final_min_commit_ts
      { to_be_write := opc.2.1.modifies, rows := rows, daggers := [],
        min_commit_ts := async_commit_ts, one_pc_commit_ts := opc.1,
        dagger_guards := opc.2.1.guards,
        response_policy := ResponsePolicy.onApplied }
    else
      { to_be_write := [], rows := rows, daggers := daggers,
        min_commit_ts := async_commit_ts, one_pc_commit_ts := 0,
        dagger_guards := [], response_policy := ResponsePolicy.onApplied }
  if (async_commit_ts ≠ 0 ∨ st.try_one_pc) ∧ async_apply_prewrite then
    { r with response_policy := ResponsePolicy.onCommitted }
  else r

/-- The error of rolling back a transaction that is already committed. -/
inductive RbErr where
  | committed (commit_ts : Nat)
deriving DecidableEq, Repr

/-- Observable events of the Rollback command: each invocation of cleanup
records the arguments it received, and the final wake-up records the
released locks it was dispatched with. -/
inductive RbEvent where
  | cleanupCall (key current_ts : Nat) (protect : Bool)
  | wakeUp (released : List (Option Nat))
deriving DecidableEq, Repr

/-- Modelled from the spec: when no lock owned by this start_ts exists,
rollback consults get_txn_commit_record; a committed (non-Rollback) record
makes the rollback illegal, otherwise it is an idempotent no-op. -/
def check_solitontxn_status_missing_dagger (txn : EpaxosTxn)
    (writeDb : List WriteEntry) (key : Nat) : Except RbErr (EpaxosTxn × Option Nat) :=
  match get_solitontxn_commit_record writeDb key txn.start_ts with
  | TxnCommitRecord.SingleRecord commit_ts w =>
    if w.write_type ≠ WriteType.Rollback then Except.error (RbErr.committed commit_ts)
    else Except.ok (txn, none)
  | _ => Except.ok (txn, none)

/-- Modelled from the spec: the cleanup action of solitontxn::actions (not
among the sources).  If a lock from this start_ts exists, discard it and
stage a Rollback write record, protected only when the caller asks for it
(protection is marked in the record's short value, as the source's
Write::new_rollback does); otherwise fall back to the missing-lock check.
current_ts drives a TTL check that the Rollback command disables by passing
zero, so it is not modelled further.  The returned event records the
arguments the action was invoked with, for reasoning about callers. -/
def cleanup (txn : EpaxosTxn) (daggerCf : List (Nat × Dagger))
    (writeDb : List WriteEntry) (key current_ts : Nat) (protect : Bool) :
    RbEvent × Except RbErr (EpaxosTxn × Option Nat) :=
  (RbEvent.cleanupCall key current_ts protect,
    match cfGet daggerCf key with
    | some l =>
      if l.start_ts = txn.start_ts then
        let w : Write :=
          { write_type := WriteType.Rollback, start_ts := txn.start_ts,
            short_value := if protect then some 1 else none,
            has_overlapped_rollback := false, gc_fence := none }
        let t := (txn.put_write key txn.start_ts w).undagger_key key
        Except.ok (t.1, some t.2)
      else check_solitontxn_status_missing_dagger txn writeDb key
    | none => check_solitontxn_status_missing_dagger txn writeDb key)

/-- The per-key loop of Rollback::process_write: call cleanup for each key
with current_ts zero and protect false, collecting the released locks and
the call events. -/
def rollbackLoop (daggerCf : List (Nat × Dagger)) (writeDb : List WriteEntry) :
    List Nat → EpaxosTxn → List (Option Nat) → List RbEvent →
    Except RbErr (EpaxosTxn × List (Option Nat) × List RbEvent)
  | [], txn, rel, evs => Except.ok (txn, rel, evs)
  | k :: ks, txn, rel, evs =>
    let c := cleanup txn daggerCf writeDb k 0 false
    match c.2 with
    | Except.error e => Except.error e
    | Except.ok (txn2, released) =>
      rollbackLoop daggerCf writeDb ks txn2 (rel ++ [released]) (evs ++ [c.1])

/-- The observable result of Rollback::process_write. -/
structure RollbackResult where
  to_be_write : List Modify
  rows : Nat
  events : List RbEvent
deriving DecidableEq, Repr

/-- Rollback::process_write: run cleanup over all keys, then dispatch a
single wake-up with the collected released locks, and hand the staged
mutations back as the write batch. -/
def Rollback_process_write (keys : List Nat) (start_ts : Nat)
    (daggerCf : List (Nat × Dagger)) (writeDb : List WriteEntry) :
    Except RbErr RollbackResult :=
  match rollbackLoop daggerCf writeDb keys (EpaxosTxn.new start_ts) [] [] with
  | Except.error e => Except.error e
  | Except.ok (txn, rel, evs) =>
    Except.ok { to_be_write := txn.modifies, rows := keys.length,
                events := evs ++ [RbEvent.wakeUp rel] }

/-- The Put write record of the worked example: put(k, start=1, commit=2). -/
def examplePut : Write :=
  { write_type := WriteType.Put, start_ts := 1, short_value := some 0,
    has_overlapped_rollback := false, gc_fence := none }

/-- The Delete write record of the worked example:
delete(k, start=8, commit=9). -/
def exampleDelete : Write :=
  { write_type := WriteType.Delete, start_ts := 8, short_value := none,
    has_overlapped_rollback := false, gc_fence := none }

/-- The write column family after put(k, 1, 2) and delete(k, 8, 9) on user
key 7: the newer version sorts first. -/
def exampleDb : List WriteEntry :=
  [{ key := 7, commit_ts := 9, write := exampleDelete },
   { key := 7, commit_ts := 2, write := examplePut }]

/-- A concrete lock used by the worked prewrite examples. -/
def exDagger : Dagger :=
  { dagger_type := WriteType.Put, start_ts := 5, short_value := none }

/-- A concrete transaction context holding one lock staged for 1PC direct
commit and one in-memory lock guard. -/
def exTxn1pc : EpaxosTxn :=
  { start_ts := 5, modifies := [], daggers_for_1pc := [(2, exDagger, true)],
    guards := [11] }

/-- A concrete Prewriter state attempting 1PC with async secondary keys. -/
def exSt1pc : PrewriteSt :=
  { txn := exTxn1pc, commit_kind := CommitKind.onePc 20,
    secondary_keys := some [], try_one_pc := true }

/-- A concrete mutation whose action outcome is CommitTsTooLarge. -/
def exMutCtl : MutM :=
  { key := 2, outcome := MutOutcome.commitTsTooLarge }

/-- A concrete mutation whose action outcome is a plain 2PC lock. -/
def exMutOk : MutM :=
  { key := 3, outcome := MutOutcome.ok 0 false }

/-- A concrete mutation whose action outcome is KeyIsDaggered. -/
def exMutDaggered : MutM :=
  { key := 9, outcome := MutOutcome.keyIsDaggered }

/-- A concrete Prewriter state attempting 1PC without secondary keys. -/
def exStOnePcNoSec : PrewriteSt :=
  { txn := EpaxosTxn.new 5, commit_kind := CommitKind.onePc 20,
    secondary_keys := none, try_one_pc := true }

/-! Helper lemmas about the write column family and seek_write. -/

theorem mem_allVersions {db : List WriteEntry} {key c : Nat} {w : Write} :
    (c, w) ∈ allVersions db key ↔ ({ key := key, commit_ts := c, write := w } : WriteEntry) ∈ db := by
  simp only [allVersions, List.mem_map, List.mem_filter, decide_eq_true_eq, Prod.mk.injEq]
  constructor
  · rintro ⟨e, ⟨he, hk⟩, hc, hw⟩
    have he2 : e = { key := key, commit_ts := c, write := w } := by
      cases e
      simp_all
    rwa [he2] at he
  · intro h
    exact ⟨{ key := key, commit_ts := c, write := w }, ⟨h, rfl⟩, rfl, rfl⟩

theorem mem_versionsUpTo {db : List WriteEntry} {key ts c : Nat} {w : Write} :
    (c, w) ∈ versionsUpTo db key ts ↔
      ({ key := key, commit_ts := c, write := w } : WriteEntry) ∈ db ∧ c ≤ ts := by
  simp [versionsUpTo, List.mem_filter, mem_allVersions]

theorem allVersions_pairwise {db : List WriteEntry} (h : wfDb db) (key : Nat) :
    (allVersions db key).Pairwise (fun a b => b.1 < a.1) := by
  unfold wfDb at h
  induction db with
  | nil => simp [allVersions]
  | cons e rest ih =>
    rcases List.pairwise_cons.mp h with ⟨he, hrest⟩
    by_cases hk : e.key = key
    · have hfe : (allVersions (e :: rest) key) =
          (e.commit_ts, e.write) :: allVersions rest key := by
        simp [allVersions, List.filter_cons, hk]
      rw [hfe]
      refine List.pairwise_cons.mpr ⟨?_, ih hrest⟩
      intro v hv
      simp only [allVersions, List.mem_map, List.mem_filter, decide_eq_true_eq] at hv
      obtain ⟨e2, ⟨he2, hk2⟩, hve⟩ := hv
      rcases he e2 he2 with h1 | ⟨h2, h3⟩
    -- entLt e e2 cannot hold by key order since both keys equal `key`
      · omega
      · rw [← hve]
        exact h3
    · have hfe : (allVersions (e :: rest) key) = allVersions rest key := by
        simp [allVersions, List.filter_cons, hk]
      rw [hfe]
      exact ih hrest

theorem versionsUpTo_pairwise {db : List WriteEntry} (h : wfDb db) (key ts : Nat) :
    (versionsUpTo db key ts).Pairwise (fun a b => b.1 < a.1) :=
  (allVersions_pairwise h key).filter _

theorem seek_write_eq_head {db : List WriteEntry} (h : wfDb db) (key ts : Nat) :
    seek_write db key ts = (versionsUpTo db key ts).head? := by
  unfold wfDb at h
  induction db with
  | nil => rfl
  | cons e rest ih =>
    rcases List.pairwise_cons.mp h with ⟨he, hrest⟩
    by_cases hklt : key < e.key
    · have hne : ¬ e.key = key := by omega
      have hnil : versionsUpTo (e :: rest) key ts = [] := by
        have hfil : (e :: rest).filter (fun x => decide (x.key = key)) = [] := by
          rw [List.filter_eq_nil_iff]
          intro a ha
          rcases List.mem_cons.mp ha with h1 | h1
          · rw [h1]
            simp [hne]
          · rcases he a h1 with h2 | ⟨h2, h3⟩
            · simp only [decide_eq_true_eq]
              omega
            · simp only [decide_eq_true_eq]
              omega
        simp [versionsUpTo, allVersions, hfil]
      rw [hnil]
      simp [seek_write, List.find?_cons, seekTargetHit, hklt, hne]
    · by_cases hk : e.key = key
      · by_cases hle : e.commit_ts ≤ ts
        · have hcons : versionsUpTo (e :: rest) key ts =
              (e.commit_ts, e.write) :: versionsUpTo rest key ts := by
            simp [versionsUpTo, allVersions, List.filter_cons, hk, hle]
          rw [hcons]
          simp [seek_write, List.find?_cons, seekTargetHit, hk, hle]
        · have hsame : versionsUpTo (e :: rest) key ts = versionsUpTo rest key ts := by
            simp [versionsUpTo, allVersions, List.filter_cons, hk, hle]
          rw [hsame, ← ih hrest]
          have hhit : seekTargetHit key ts e = false := by
            simp [seekTargetHit, hklt, hk, hle]
          simp [seek_write, List.find?_cons, hhit]
      · have hsame : versionsUpTo (e :: rest) key ts = versionsUpTo rest key ts := by
          simp [versionsUpTo, allVersions, List.filter_cons, hk]
        rw [hsame, ← ih hrest]
        have hhit : seekTargetHit key ts e = false := by
          simp [seekTargetHit, hklt, hk]
        simp [seek_write, List.find?_cons, hhit]

theorem desc_head_max {l : List (Nat × Write)} (hl : l.Pairwise (fun a b => b.1 < a.1))
    {p q : Nat × Write} (hh : l.head? = some p) (hq : q ∈ l) : q.1 ≤ p.1 := by
  cases l with
  | nil => cases hq
  | cons a t =>
    have hap : a = p := by simpa using hh
    subst hap
    rcases List.pairwise_cons.mp hl with ⟨ha, _⟩
    rcases List.mem_cons.mp hq with h1 | h1
    · rw [h1]
    · exact Nat.le_of_lt (ha q h1)

theorem desc_filter_step {l : List (Nat × Write)} (hl : l.Pairwise (fun a b => b.1 < a.1))
    {ts c : Nat} {w : Write} {t : List (Nat × Write)} (h1 : 1 ≤ c)
    (hc : l.filter (fun v => decide (v.1 ≤ ts)) = (c, w) :: t) :
    t = l.filter (fun v => decide (v.1 ≤ c - 1)) := by
  induction l with
  | nil => simp at hc
  | cons a l2 ih =>
    rcases List.pairwise_cons.mp hl with ⟨ha, hl2⟩
    by_cases hts : a.1 ≤ ts
    · rw [List.filter_cons_of_pos (by simpa using hts)] at hc
      have hac : a = (c, w) := (List.cons.injEq _ _ _ _ ▸ hc).1
      have ht2 : l2.filter (fun v => decide (v.1 ≤ ts)) = t :=
        (List.cons.injEq _ _ _ _ ▸ hc).2
      have ha1 : a.1 = c := by rw [hac]
      have hcts : c ≤ ts := by omega
      rw [List.filter_cons_of_neg (by simp; omega)]
      rw [← ht2]
      apply List.filter_congr
      intro x hx
      have hlt : x.1 < c := by
        have hxa := ha x hx
        omega
      have hx1 : x.1 ≤ c - 1 := by omega
      have hx2 : x.1 ≤ ts := by omega
      simp [hx1, hx2]
    · rw [List.filter_cons_of_neg (by simpa using hts)] at hc
      have hcts : c ≤ ts := by
        have : (c, w) ∈ l2.filter (fun v => decide (v.1 ≤ ts)) := by
          rw [hc]
          exact List.mem_cons_self _ _
        have := (List.mem_filter.mp this).2
        simpa using this
      rw [List.filter_cons_of_neg (by simp; omega)]
      exact ih hl2 hc

/-- C5: on a well-formed write column family, seek_write(key, ts) returns the
write record of that key with the greatest commit_ts at or below ts — the
returned record always belongs to the queried user key, never to a different
one — and returns None exactly when the key has no version at or below ts;
consequently, for ts1 below ts2, the commit_ts answered for ts2 is at least
the one answered for ts1. -/
theorem seek_write_returns_greatest_le (db : List WriteEntry) (key ts : Nat)
    (h : wfDb db) :
    (∀ c w, seek_write db key ts = some (c, w) →
      ({ key := key, commit_ts := c, write := w } : WriteEntry) ∈ db ∧ c ≤ ts ∧
        ∀ e ∈ db, e.key = key → e.commit_ts ≤ ts → e.commit_ts ≤ c)
    ∧ (seek_write db key ts = none →
        ∀ e ∈ db, e.key = key → ¬ e.commit_ts ≤ ts)
    ∧ (∀ ts2 c w, ts < ts2 → seek_write db key ts = some (c, w) →
        ∃ c2 w2, seek_write db key ts2 = some (c2, w2) ∧ c ≤ c2) := by
  refine ⟨?_, ?_, ?_⟩
  · intro c w hs
    rw [seek_write_eq_head h] at hs
    have hmem := List.mem_of_mem_head? (a := (c, w)) hs
    rcases mem_versionsUpTo.mp hmem with ⟨hdb, hcts⟩
    refine ⟨hdb, hcts, ?_⟩
    intro e he hek hets
    have hev : (e.commit_ts, e.write) ∈ versionsUpTo db key ts := by
      refine mem_versionsUpTo.mpr ⟨?_, hets⟩
      have : e = { key := key, commit_ts := e.commit_ts, write := e.write } := by
        cases e
        simp_all
      rwa [this] at he
    exact desc_head_max (versionsUpTo_pairwise h key ts) hs hev
  · intro hs e he hek hets
    rw [seek_write_eq_head h] at hs
    have hnil : versionsUpTo db key ts = [] := List.head?_eq_none_iff.mp hs
    have hev : (e.commit_ts, e.write) ∈ versionsUpTo db key ts := by
      refine mem_versionsUpTo.mpr ⟨?_, hets⟩
      have : e = { key := key, commit_ts := e.commit_ts, write := e.write } := by
        cases e
        simp_all
      rwa [this] at he
    rw [hnil] at hev
    cases hev
  · intro ts2 c w hlt hs
    rw [seek_write_eq_head h] at hs
    have hmem := List.mem_of_mem_head? (a := (c, w)) hs
    rcases mem_versionsUpTo.mp hmem with ⟨hdb, hcts⟩
    have hmem2 : (c, w) ∈ versionsUpTo db key ts2 :=
      mem_versionsUpTo.mpr ⟨hdb, by omega⟩
    cases hv : versionsUpTo db key ts2 with
    | nil =>
      rw [hv] at hmem2
      cases hmem2
    | cons p t =>
      obtain ⟨c2, w2⟩ := p
      refine ⟨c2, w2, ?_, ?_⟩
      · rw [seek_write_eq_head h, hv]
        rfl
      · have hh : (versionsUpTo db key ts2).head? = some (c2, w2) := by
          rw [hv]
          rfl
        exact desc_head_max (versionsUpTo_pairwise h key ts2) hh hmem2

theorem seek_write_greatest_witness :
    ({ key := 7, commit_ts := 2, write := examplePut } : WriteEntry) ∈ exampleDb ∧ 2 ≤ 5 ∧
      ∀ e ∈ exampleDb, e.key = 7 → e.commit_ts ≤ 5 → e.commit_ts ≤ 2 :=
  (seek_write_returns_greatest_le exampleDb 7 5 (by decide)).1 2 examplePut (by decide)

theorem versionsUpTo_cons_of_head {db : List WriteEntry} (h : wfDb db)
    (hpos : ∀ e ∈ db, 1 ≤ e.commit_ts) {key ts c : Nat} {w : Write}
    (hc : (versionsUpTo db key ts).head? = some (c, w)) :
    versionsUpTo db key ts = (c, w) :: versionsUpTo db key (c - 1) ∧ 1 ≤ c ∧ c ≤ ts := by
  have hmem := List.mem_of_mem_head? (a := (c, w)) hc
  rcases mem_versionsUpTo.mp hmem with ⟨hdb, hcts⟩
  have h1c : 1 ≤ c := hpos _ hdb
  cases hv : versionsUpTo db key ts with
  | nil =>
    rw [hv] at hc
    cases hc
  | cons p t =>
    rw [hv] at hc
    have hp : p = (c, w) := by simpa using hc
    subst hp
    have hfil : (allVersions db key).filter (fun v => decide (v.1 ≤ ts)) = (c, w) :: t := hv
    have ht := desc_filter_step (allVersions_pairwise h key) h1c hfil
    refine ⟨?_, h1c, hcts⟩
    rw [ht]
    rfl

theorem versionsUpTo_length_lt (db : List WriteEntry) (key ts : Nat) :
    (versionsUpTo db key ts).length < db.length + 1 := by
  have h1 := List.length_filter_le (fun v => decide (v.1 ≤ ts)) (allVersions db key)
  have h2 : (allVersions db key).length ≤ db.length := by
    have := List.length_filter_le (fun e => decide (e.key = key)) db
    simpa [allVersions] using this
  unfold versionsUpTo
  omega

theorem getWriteAux_eq {db : List WriteEntry} (h : wfDb db)
    (hpos : ∀ e ∈ db, 1 ≤ e.commit_ts) (key : Nat) (gl : Option Nat) :
    ∀ fuel ts, (versionsUpTo db key ts).length < fuel →
      getWriteAux db key gl fuel ts = newestVisibleWrite gl (versionsUpTo db key ts) := by
  intro fuel
  induction fuel with
  | zero =>
    intro ts hts
    omega
  | succ n ih =>
    intro ts hts
    cases hv : (versionsUpTo db key ts).head? with
    | none =>
      have hnil : versionsUpTo db key ts = [] := List.head?_eq_none_iff.mp hv
      have hseek : seek_write db key ts = none := by
        rw [seek_write_eq_head h, hv]
      simp [getWriteAux, hseek, hnil, newestVisibleWrite]
    | some p =>
      obtain ⟨c, w⟩ := p
      obtain ⟨hsplit, h1c, hcts⟩ := versionsUpTo_cons_of_head h hpos hv
      have hseek : seek_write db key ts = some (c, w) := by
        rw [seek_write_eq_head h, hv]
      have hlen2 : (versionsUpTo db key (c - 1)).length < n := by
        rw [hsplit] at hts
        simpa using hts
      rw [hsplit]
      simp only [getWriteAux, hseek, newestVisibleWrite]
      by_cases hgc : gcFenceRejects gl w
      · simp [hgc]
      · simp only [hgc, Bool.false_eq_true, if_false]
        cases hwt : w.write_type with
        | Put => rfl
        | Delete => rfl
        | Dagger => exact ih (c - 1) hlen2
        | Rollback => exact ih (c - 1) hlen2

/-- C1: get_write(key, ts, gc_fence_limit) walks the key's versions newest
first starting from the greatest commit_ts at or below ts: Dagger (lock) and
Rollback records are skipped by retrying just below their commit_ts, a Put is
returned, a Delete yields None, and with a gc_fence_limit a found write whose
gc-fence is set and below the limit yields None.  In particular, after
put(k, start=1, commit=2) and delete(k, start=8, commit=9), get_write(k, 5)
returns the Put with start_ts 1 and get_write(k, 9) returns None. -/
theorem get_write_newest_visible (db : List WriteEntry) (key ts : Nat)
    (gl : Option Nat) (h : wfDb db) (hpos : ∀ e ∈ db, 1 ≤ e.commit_ts) :
    get_write_with_commit_ts db key ts gl = newestVisibleWrite gl (versionsUpTo db key ts)
    ∧ get_write db key ts gl = (newestVisibleWrite gl (versionsUpTo db key ts)).map Prod.fst
    ∧ get_write exampleDb 7 5 none = some examplePut
    ∧ get_write exampleDb 7 9 none = none := by
  have heq := getWriteAux_eq h hpos key gl (db.length + 1) ts
    (versionsUpTo_length_lt db key ts)
  refine ⟨heq, ?_, by decide, by decide⟩
  unfold get_write get_write_with_commit_ts
  unfold get_write_with_commit_ts at heq
  rw [heq]

theorem get_write_newest_visible_witness :
    get_write_with_commit_ts exampleDb 7 5 none =
      newestVisibleWrite none (versionsUpTo exampleDb 7 5) :=
  (get_write_newest_visible exampleDb 7 5 none (by decide) (by decide)).1

theorem txnRecAux_eq {db : List WriteEntry} (h : wfDb db)
    (hpos : ∀ e ∈ db, 1 ≤ e.commit_ts) (key start_ts : Nat) :
    ∀ fuel seek_ts gc_fence, (versionsUpTo db key seek_ts).length < fuel →
      txnRecAux db key start_ts fuel seek_ts gc_fence =
        commitRecordScan start_ts gc_fence (versionsUpTo db key seek_ts) := by
  intro fuel
  induction fuel with
  | zero =>
    intro seek_ts gc_fence hts
    omega
  | succ n ih =>
    intro seek_ts gc_fence hts
    cases hv : (versionsUpTo db key seek_ts).head? with
    | none =>
      have hnil : versionsUpTo db key seek_ts = [] := List.head?_eq_none_iff.mp hv
      have hseek : seek_write db key seek_ts = none := by
        rw [seek_write_eq_head h, hv]
      simp [txnRecAux, hseek, hnil, commitRecordScan]
    | some p =>
      obtain ⟨c, w⟩ := p
      obtain ⟨hsplit, h1c, hcts⟩ := versionsUpTo_cons_of_head h hpos hv
      have hseek : seek_write db key seek_ts = some (c, w) := by
        rw [seek_write_eq_head h, hv]
      have hlen2 : (versionsUpTo db key (c - 1)).length < n := by
        rw [hsplit] at hts
        simpa using hts
      rw [hsplit]
      simp only [txnRecAux, hseek, commitRecordScan]
      by_cases h1 : w.start_ts = start_ts
      · simp [h1]
      · simp only [h1, if_false]
        by_cases h2 : c = start_ts
        · simp [h2]
        · simp only [h2, if_false]
          by_cases h3 : c < start_ts
          · simp [h3]
          · simp only [h3, if_false]
            exact ih (c - 1) _ hlen2

/-- C4: get_solitontxn_commit_record scans the key's write records from the
maximum timestamp downward; it answers SingleRecord with that record's
commit_ts for the first record whose embedded start_ts equals the query,
answers OverlappedRollback when it instead meets a record whose commit_ts
equals the query start_ts and which carries the overlapped-rollback flag
(and None carrying that overlapped write otherwise), and the scan stops as
soon as a record with commit_ts below the query start_ts has been
examined — which is exactly what commitRecordScan does to the version
list. -/
theorem get_solitontxn_commit_record_scan (db : List WriteEntry)
    (key start_ts : Nat) (h : wfDb db) (hpos : ∀ e ∈ db, 1 ≤ e.commit_ts)
    (hbound : ∀ e ∈ db, e.commit_ts ≤ tsMax) :
    get_solitontxn_commit_record db key start_ts =
      commitRecordScan start_ts 0 (allVersions db key) := by
  have hall : versionsUpTo db key tsMax = allVersions db key := by
    apply List.filter_eq_self.mpr
    intro v hv
    obtain ⟨c, w⟩ := v
    have hm := mem_allVersions.mp hv
    have hb := hbound _ hm
    simpa using hb
  have heq := txnRecAux_eq h hpos key start_ts (db.length + 1) tsMax 0
    (versionsUpTo_length_lt db key tsMax)
  unfold get_solitontxn_commit_record
  rw [heq, hall]

theorem get_solitontxn_commit_record_scan_witness :
    get_solitontxn_commit_record exampleDb 7 1 =
      commitRecordScan 1 0 (allVersions exampleDb 7) :=
  get_solitontxn_commit_record_scan exampleDb 7 1 (by decide) (by decide) (by decide)

/-- C6 as stated fails on the code: the staleness checks are guarded by the
reader's own term and version being nonzero.  A reader with term zero whose
term differs from the table's term does not fail with StaleCommand; it
reports the lock as absent (falling through to the empty lock column
family). -/
theorem load_dagger_zero_term_counterexample :
    (({ term := 0, version := 0 } : ReaderSt).term ≠
        ({ term := 1, version := 1, entries := [] } : DaggerTable).term)
    ∧ load_dagger { term := 0, version := 0 }
        (some { term := 1, version := 1, entries := [] }) [] 0 = Except.ok none :=
  ⟨by decide, rfl⟩

/-- C6 (amended): load_dagger first consults the in-memory pessimistic lock
table: when the reader's term is nonzero and differs from the table's term
it fails with StaleCommand; when the term check passes and the reader's
version is nonzero and differs from the table's version it fails with
EpochNotMatch, rather than reporting the lock as absent; an in-memory lock
that is found is returned, and only when no in-memory lock is found does it
fall back to the persistent lock column family. -/
theorem load_dagger_staleness (r : ReaderSt) (t : DaggerTable)
    (cf : List (Nat × Dagger)) (key : Nat) :
    (r.term ≠ 0 → t.term ≠ r.term →
      load_dagger r (some t) cf key = Except.error LoadErr.staleCommand)
    ∧ (¬ (r.term ≠ 0 ∧ t.term ≠ r.term) → r.version ≠ 0 → t.version ≠ r.version →
      load_dagger r (some t) cf key = Except.error LoadErr.epochNotMatch)
    ∧ (∀ d, load_in_memory_pessimistic_dagger r (some t) key = Except.ok (some d) →
      load_dagger r (some t) cf key = Except.ok (some d))
    ∧ (load_in_memory_pessimistic_dagger r (some t) key = Except.ok none →
      load_dagger r (some t) cf key = Except.ok (cfGet cf key)) := by
  refine ⟨?_, ?_, ?_, ?_⟩
  · intro h1 h2
    simp [load_dagger, load_in_memory_pessimistic_dagger, h1, h2]
  · intro h0 h1 h2
    simp [load_dagger, load_in_memory_pessimistic_dagger, h0, h1, h2]
  · intro d hd
    simp [load_dagger, hd]
  · intro hd
    simp [load_dagger, hd]

theorem load_dagger_staleness_witness :
    load_dagger { term := 2, version := 3 }
      (some { term := 9, version := 3, entries := [] }) [] 0 =
      Except.error LoadErr.staleCommand :=
  (load_dagger_staleness { term := 2, version := 3 }
    { term := 9, version := 3, entries := [] } [] 0).1 (by decide) (by decide)

/-- C9: a reader built by EpaxosReader::new carries term and version zero,
and the staleness checks of load_dagger are guarded by term and version
being nonzero; such a reader therefore never returns StaleCommand or
EpochNotMatch and unconditionally trusts both the contents and the absences
of the in-memory pessimistic lock table, falling back to the persistent
lock column family only when the table has no entry. -/
theorem new_reader_trusts_table (ext : Option DaggerTable)
    (cf : List (Nat × Dagger)) (key : Nat) :
    EpaxosReader_new.term = 0 ∧ EpaxosReader_new.version = 0 ∧
    load_dagger EpaxosReader_new ext cf key =
      Except.ok (match ext with
        | some t =>
          match (tableGet t.entries key).map Prod.fst with
          | some d => some d
          | none => cfGet cf key
        | none => cfGet cf key) := by
  refine ⟨rfl, rfl, ?_⟩
  cases ext with
  | none => rfl
  | some t =>
    have hmem : load_in_memory_pessimistic_dagger EpaxosReader_new (some t) key =
        Except.ok ((tableGet t.entries key).map Prod.fst) := by
      simp [load_in_memory_pessimistic_dagger, EpaxosReader_new]
    cases ho : (tableGet t.entries key).map Prod.fst with
    | none => simp [load_dagger, hmem, ho]
    | some d => simp [load_dagger, hmem, ho]

theorem rollbackLoop_events (daggerCf : List (Nat × Dagger))
    (writeDb : List WriteEntry) :
    ∀ keys (txn : EpaxosTxn) rel evs txn2 rel2 evs2,
      rollbackLoop daggerCf writeDb keys txn rel evs = Except.ok (txn2, rel2, evs2) →
      evs2 = evs ++ keys.map (fun k => RbEvent.cleanupCall k 0 false)
      ∧ rel2.length = rel.length + keys.length := by
  intro keys
  induction keys with
  | nil =>
    intro txn rel evs txn2 rel2 evs2 hok
    simp only [rollbackLoop, Except.ok.injEq, Prod.mk.injEq] at hok
    obtain ⟨h1, h2, h3⟩ := hok
    subst h2 h3
    simp
  | cons k ks ih =>
    intro txn rel evs txn2 rel2 evs2 hok
    simp only [rollbackLoop] at hok
    cases hc : (cleanup txn daggerCf writeDb k 0 false).2 with
    | error e =>
      rw [hc] at hok
      cases hok
    | ok p =>
      obtain ⟨txn3, released⟩ := p
      rw [hc] at hok
      have hev1 : (cleanup txn daggerCf writeDb k 0 false).1 =
          RbEvent.cleanupCall k 0 false := rfl
      obtain ⟨he, hl⟩ := ih txn3 (rel ++ [released])
        (evs ++ [(cleanup txn daggerCf writeDb k 0 false).1]) txn2 rel2 evs2 hok
      constructor
      · rw [he, hev1]
        simp
      · simp only [List.length_append, List.length_singleton] at hl
        simp only [List.length_cons]
        omega

/-- C7: for every key of a Rollback command at a given start_ts,
process_write invokes cleanup with current_ts zero and the protect flag set
to false (an unprotected rollback record, since the transaction is known to
fail), and the released locks of all keys are collected and dispatched in a
single wake-up only after every key has been processed. -/
theorem rollback_process_write_events (keys : List Nat) (start_ts : Nat)
    (daggerCf : List (Nat × Dagger)) (writeDb : List WriteEntry)
    (r : RollbackResult)
    (h : Rollback_process_write keys start_ts daggerCf writeDb = Except.ok r) :
    ∃ rel, rel.length = keys.length ∧
      r.events = keys.map (fun k => RbEvent.cleanupCall k 0 false)
        ++ [RbEvent.wakeUp rel] := by
  unfold Rollback_process_write at h
  cases hl : rollbackLoop daggerCf writeDb keys (EpaxosTxn.new start_ts) [] [] with
  | error e =>
    rw [hl] at h
    cases h
  | ok p =>
    obtain ⟨txn, rel, evs⟩ := p
    rw [hl] at h
    obtain ⟨he, hlen⟩ :=
      rollbackLoop_events daggerCf writeDb keys (EpaxosTxn.new start_ts) [] [] txn rel evs hl
    refine ⟨rel, by simpa using hlen, ?_⟩
    injection h with h2
    rw [← h2]
    simp only [he]
    simp

theorem rollback_process_write_events_witness :
    ∃ rel, rel.length = ([4, 5] : List Nat).length ∧
      ({ to_be_write := [], rows := 2,
         events := [RbEvent.cleanupCall 4 0 false, RbEvent.cleanupCall 5 0 false,
           RbEvent.wakeUp [none, none]] } : RollbackResult).events =
        ([4, 5] : List Nat).map (fun k => RbEvent.cleanupCall k 0 false)
          ++ [RbEvent.wakeUp rel] :=
  rollback_process_write_events [4, 5] 10 [] []
    { to_be_write := [], rows := 2,
      events := [RbEvent.cleanupCall 4 0 false, RbEvent.cleanupCall 5 0 false,
        RbEvent.wakeUp [none, none]] } (by rfl)

/-! Helper lemmas about the prewrite loop. -/

theorem prewriteLoop_cons_continues (db : List WriteEntry) (start_ts : Nat)
    (m : MutM) (ms : List MutM) (st : PrewriteSt) (d : List Nat) (f : Nat)
    (hm : continuesLoop m = true) :
    ∃ st2 d2 f2, prewriteLoop db start_ts (m :: ms) st d f =
      prewriteLoop db start_ts ms st2 d2 f2 := by
  cases ho : m.outcome with
  | ok ts old =>
    by_cases hz : ((st.secondary_keys.isSome || st.try_one_pc) && decide (ts = 0)) = true
    · refine ⟨fallbackState st, d, 0, ?_⟩
      simp only [prewriteLoop, ho]
      rw [if_pos hz]
    · refine ⟨st, d,
        (if (st.secondary_keys.isSome || st.try_one_pc) && decide (f < ts) then ts else f), ?_⟩
      simp only [prewriteLoop, ho]
      rw [if_neg hz]
  | writeConflict s c =>
    rw [continuesLoop, ho] at hm
    cases hm
  | pessimisticDaggerNotFound =>
    rw [continuesLoop, ho] at hm
    cases hm
  | commitTsTooLarge =>
    exact ⟨fallbackState st, d, 0, by simp only [prewriteLoop, ho]⟩
  | keyIsDaggered =>
    exact ⟨st, d ++ [m.key], f, by simp only [prewriteLoop, ho]⟩
  | fatal =>
    rw [continuesLoop, ho] at hm
    cases hm

theorem prewriteLoop_append_continues (db : List WriteEntry) (start_ts : Nat) :
    ∀ (pre : List MutM), (∀ x ∈ pre, continuesLoop x = true) →
      ∀ (l : List MutM) (st : PrewriteSt) (d : List Nat) (f : Nat),
        ∃ st2 d2 f2, prewriteLoop db start_ts (pre ++ l) st d f =
          prewriteLoop db start_ts l st2 d2 f2 := by
  intro pre
  induction pre with
  | nil =>
    intro hpre l st d f
    exact ⟨st, d, f, rfl⟩
  | cons x xs ih =>
    intro hpre l st d f
    obtain ⟨st1, d1, f1, h1⟩ := prewriteLoop_cons_continues db start_ts x (xs ++ l) st d f
      (hpre x (List.mem_cons_self x xs))
    obtain ⟨st2, d2, f2, h2⟩ := ih (fun y hy => hpre y (List.mem_cons_of_mem x hy)) l st1 d1 f1
    exact ⟨st2, d2, f2, by rw [List.cons_append, h1, h2]⟩

theorem one_pc_commit_ts_modifies_of_cleared (try_one_pc : Bool) (txn : EpaxosTxn)
    (final : Nat) (hmod : txn.modifies = []) (h1pc : txn.daggers_for_1pc = []) :
    (one_pc_commit_ts try_one_pc txn final).2.1.modifies = [] := by
  unfold one_pc_commit_ts handle_1pc_daggers
  by_cases h : try_one_pc
  · simp [h, h1pc, hmod]
  · simp [h, hmod]

theorem write_result_empty_modifies (st : PrewriteSt) (final rows : Nat) (aap : Bool)
    (hmod : st.txn.modifies = []) (h1pc : st.txn.daggers_for_1pc = []) :
    (write_result st [] final rows aap).to_be_write = [] := by
  have hopc := one_pc_commit_ts_modifies_of_cleared st.try_one_pc st.txn final hmod h1pc
  unfold write_result
  simp [hopc, apply_ite WriteResultM.to_be_write]

/-- C2: if a mutation of a prewrite batch fails with WriteConflict whose
conflicting commit_ts is greater than this transaction's start_ts, or with
PessimisticDaggerNotFound, and get_solitontxn_commit_record for that key at
this transaction's start_ts finds a single non-Rollback commit record, then
the whole prewrite returns success reporting that record's commit_ts, with
the staged mutations cleared so that the resulting write batch (to_be_write)
is empty on the retry. -/
theorem prewrite_retry_committed (db : List WriteEntry) (start_ts : Nat)
    (pre : List MutM) (m : MutM) (rest : List MutM) (st0 : PrewriteSt)
    (cc ct : Nat) (w : Write)
    (hpre : ∀ x ∈ pre, continuesLoop x = true)
    (hm : (m.outcome = MutOutcome.writeConflict start_ts cc ∧ start_ts < cc)
        ∨ m.outcome = MutOutcome.pessimisticDaggerNotFound)
    (hrec : get_solitontxn_commit_record db m.key start_ts =
      TxnCommitRecord.SingleRecord ct w)
    (hw : w.write_type ≠ WriteType.Rollback) :
    ∃ st2, prewriteLoop db start_ts (pre ++ m :: rest) st0 [] 0 =
        Except.ok (st2, [], ct)
      ∧ st2.txn.modifies = [] ∧ st2.txn.daggers_for_1pc = []
      ∧ ∀ rows aap, (write_result st2 [] ct rows aap).to_be_write = [] := by
  obtain ⟨st1, d1, f1, hskip⟩ :=
    prewriteLoop_append_continues db start_ts pre hpre (m :: rest) st0 [] 0
  have hcheck : check_committed_record_on_err db m.outcome st1 m.key start_ts =
      Except.ok ({ st1 with txn := st1.txn.clear }, [], ct) := by
    unfold check_committed_record_on_err
    rw [hrec]
    simp [hw]
  have hstep : prewriteLoop db start_ts (m :: rest) st1 d1 f1 =
      Except.ok ({ st1 with txn := st1.txn.clear }, [], ct) := by
    rcases hm with ⟨ho, hlt⟩ | ho
    · rw [ho] at hcheck
      simp only [prewriteLoop, ho]
      rw [if_pos hlt]
      exact hcheck
    · rw [ho] at hcheck
      simp only [prewriteLoop, ho]
      exact hcheck
  refine ⟨{ st1 with txn := st1.txn.clear }, ?_, rfl, rfl, ?_⟩
  · rw [hskip, hstep]
  · intro rows aap
    exact write_result_empty_modifies _ ct rows aap rfl rfl

theorem prewrite_retry_committed_witness :
    ∃ st2, prewriteLoop
        [{ key := 3, commit_ts := 10,
           write := { write_type := WriteType.Put, start_ts := 5, short_value := none,
                      has_overlapped_rollback := false, gc_fence := none } }] 5
        ([] ++ ({ key := 3, outcome := MutOutcome.pessimisticDaggerNotFound } : MutM) :: [])
        { txn := EpaxosTxn.new 5, commit_kind := CommitKind.async 20,
          secondary_keys := some [], try_one_pc := false } [] 0 =
        Except.ok (st2, [], 10)
      ∧ st2.txn.modifies = [] ∧ st2.txn.daggers_for_1pc = []
      ∧ ∀ rows aap, (write_result st2 [] 10 rows aap).to_be_write = [] :=
  prewrite_retry_committed _ 5 []
    { key := 3, outcome := MutOutcome.pessimisticDaggerNotFound } []
    { txn := EpaxosTxn.new 5, commit_kind := CommitKind.async 20,
      secondary_keys := some [], try_one_pc := false } 0 10
    { write_type := WriteType.Put, start_ts := 5, short_value := none,
      has_overlapped_rollback := false, gc_fence := none }
    (by intro x hx; cases hx) (Or.inr rfl) (by decide) (by decide)

theorem prewriteLoop_final_zero (db : List WriteEntry) (start_ts : Nat) :
    ∀ (ms : List MutM) (st : PrewriteSt) (d : List Nat),
      st.secondary_keys = none → st.try_one_pc = false →
      (∀ x ∈ ms, continuesLoop x = true) →
      ∃ st2 d2, prewriteLoop db start_ts ms st d 0 = Except.ok (st2, d2, 0) := by
  intro ms
  induction ms with
  | nil =>
    intro st d h1 h2 h3
    exact ⟨st, d, rfl⟩
  | cons m ms2 ih =>
    intro st d h1 h2 h3
    have hneed : (st.secondary_keys.isSome || st.try_one_pc) = false := by
      simp [h1, h2]
    have h3rest : ∀ x ∈ ms2, continuesLoop x = true :=
      fun x hx => h3 x (List.mem_cons_of_mem m hx)
    cases ho : m.outcome with
    | ok ts old =>
      simp only [prewriteLoop, ho, hneed, Bool.false_and, Bool.false_eq_true, if_false]
      exact ih st d h1 h2 h3rest
    | writeConflict s c =>
      have := h3 m (List.mem_cons_self m ms2)
      rw [continuesLoop, ho] at this
      cases this
    | pessimisticDaggerNotFound =>
      have := h3 m (List.mem_cons_self m ms2)
      rw [continuesLoop, ho] at this
      cases this
    | commitTsTooLarge =>
      simp only [prewriteLoop, ho]
      exact ih (fallbackState st) d rfl rfl h3rest
    | keyIsDaggered =>
      simp only [prewriteLoop, ho]
      exact ih st (d ++ [m.key]) h1 h2 h3rest
    | fatal =>
      have := h3 m (List.mem_cons_self m ms2)
      rw [continuesLoop, ho] at this
      cases this

/-- C3: if a mutation of a prewrite batch fails with CommitTsTooLarge, the
whole batch downgrades to two-phase commit: commit kind becomes TwoPc, the
async-commit secondary key list is cleared, try_one_pc is cleared, every
lock staged for 1PC direct commit is converted back into an ordinary
persisted lock (and the in-memory guards are released), and the accumulated
final min_commit_ts is reset to zero and stays zero for the remainder of
the batch. -/
theorem prewrite_commit_ts_too_large_fallback (db : List WriteEntry) (start_ts : Nat)
    (m : MutM) (rest : List MutM) (st : PrewriteSt) (d : List Nat) (f : Nat)
    (hm : m.outcome = MutOutcome.commitTsTooLarge)
    (hrest : ∀ x ∈ rest, continuesLoop x = true) :
    prewriteLoop db start_ts (m :: rest) st d f =
      prewriteLoop db start_ts rest (fallbackState st) d 0
    ∧ (fallbackState st).secondary_keys = none
    ∧ (fallbackState st).try_one_pc = false
    ∧ (fallbackState st).commit_kind = CommitKind.twoPc
    ∧ (fallbackState st).txn.daggers_for_1pc = []
    ∧ (fallbackState st).txn.guards = []
    ∧ (fallbackState st).txn.modifies =
        st.txn.modifies ++ st.txn.daggers_for_1pc.map (fun x => Modify.putDagger x.1 x.2.1)
    ∧ ∃ st2 d2, prewriteLoop db start_ts (m :: rest) st d f = Except.ok (st2, d2, 0) := by
  have hstep : prewriteLoop db start_ts (m :: rest) st d f =
      prewriteLoop db start_ts rest (fallbackState st) d 0 := by
    simp only [prewriteLoop, hm]
  refine ⟨hstep, rfl, rfl, rfl, rfl, rfl, rfl, ?_⟩
  obtain ⟨st2, d2, h2⟩ :=
    prewriteLoop_final_zero db start_ts rest (fallbackState st) d rfl rfl hrest
  exact ⟨st2, d2, by rw [hstep, h2]⟩

theorem prewrite_commit_ts_too_large_fallback_witness :
    (prewriteLoop [] 5 (exMutCtl :: [exMutOk]) exSt1pc [] 7 =
      prewriteLoop [] 5 [exMutOk] (fallbackState exSt1pc) [] 0)
    ∧ (fallbackState exSt1pc).secondary_keys = none
    ∧ (fallbackState exSt1pc).try_one_pc = false
    ∧ (fallbackState exSt1pc).commit_kind = CommitKind.twoPc
    ∧ (fallbackState exSt1pc).txn.daggers_for_1pc = []
    ∧ (fallbackState exSt1pc).txn.guards = []
    ∧ (fallbackState exSt1pc).txn.modifies =
        exSt1pc.txn.modifies ++
          exSt1pc.txn.daggers_for_1pc.map (fun x => Modify.putDagger x.1 x.2.1)
    ∧ ∃ st2 d2, prewriteLoop [] 5 (exMutCtl :: [exMutOk]) exSt1pc [] 7 =
        Except.ok (st2, d2, 0) :=
  prewrite_commit_ts_too_large_fallback [] 5 exMutCtl [exMutOk] exSt1pc [] 7 rfl
    (by decide)

theorem prewriteLoop_collects (db : List WriteEntry) (start_ts : Nat) :
    ∀ (ms : List MutM) (st : PrewriteSt) (d : List Nat) (f : Nat),
      (∀ x ∈ ms, continuesLoop x = true) →
      ∃ st2 f2, prewriteLoop db start_ts ms st d f =
        Except.ok (st2, d ++ daggeredKeys ms, f2) := by
  intro ms
  induction ms with
  | nil =>
    intro st d f h
    exact ⟨st, f, by simp [prewriteLoop, daggeredKeys]⟩
  | cons m ms2 ih =>
    intro st d f h
    have hrest : ∀ x ∈ ms2, continuesLoop x = true :=
      fun x hx => h x (List.mem_cons_of_mem m hx)
    cases ho : m.outcome with
    | ok ts old =>
      have hdk : daggeredKeys (m :: ms2) = daggeredKeys ms2 := by
        simp [daggeredKeys, List.filterMap_cons, ho]
      rw [hdk]
      by_cases hz : ((st.secondary_keys.isSome || st.try_one_pc) && decide (ts = 0)) = true
      · simp only [prewriteLoop, ho]
        rw [if_pos hz]
        exact ih (fallbackState st) d 0 hrest
      · simp only [prewriteLoop, ho]
        rw [if_neg hz]
        exact ih st d _ hrest
    | writeConflict s c =>
      have := h m (List.mem_cons_self m ms2)
      rw [continuesLoop, ho] at this
      cases this
    | pessimisticDaggerNotFound =>
      have := h m (List.mem_cons_self m ms2)
      rw [continuesLoop, ho] at this
      cases this
    | commitTsTooLarge =>
      have hdk : daggeredKeys (m :: ms2) = daggeredKeys ms2 := by
        simp [daggeredKeys, List.filterMap_cons, ho]
      rw [hdk]
      simp only [prewriteLoop, ho]
      exact ih (fallbackState st) d 0 hrest
    | keyIsDaggered =>
      have hdk : daggeredKeys (m :: ms2) = m.key :: daggeredKeys ms2 := by
        simp [daggeredKeys, List.filterMap_cons, ho]
      rw [hdk]
      simp only [prewriteLoop, ho]
      obtain ⟨st2, f2, h2⟩ := ih st (d ++ [m.key]) f hrest
      refine ⟨st2, f2, ?_⟩
      rw [h2]
      simp
    | fatal =>
      have := h m (List.mem_cons_self m ms2)
      rw [continuesLoop, ho] at this
      cases this

/-- C8: every KeyIsDaggered (KeyIsLocked) error of a prewrite batch is
collected into a vector instead of aborting the batch, and when at least
one such error was collected the assembled WriteResult carries those
per-key errors, an empty to_be_write batch, no dagger guards and a zero
one_pc_commit_ts, so no mutation of the batch reaches storage while some
keys are locked. -/
theorem prewrite_keyisdaggered_collected (db : List WriteEntry) (start_ts : Nat)
    (ms : List MutM) (st : PrewriteSt)
    (hms : ∀ x ∈ ms, continuesLoop x = true) :
    (∃ st2 f2, prewriteLoop db start_ts ms st [] 0 =
        Except.ok (st2, daggeredKeys ms, f2))
    ∧ ∀ (st3 : PrewriteSt) (dg : List Nat) (fin rows : Nat) (aap : Bool),
        dg ≠ [] →
        (write_result st3 dg fin rows aap).to_be_write = []
        ∧ (write_result st3 dg fin rows aap).dagger_guards = []
        ∧ (write_result st3 dg fin rows aap).one_pc_commit_ts = 0
        ∧ (write_result st3 dg fin rows aap).daggers = dg := by
  constructor
  · obtain ⟨st2, f2, h2⟩ := prewriteLoop_collects db start_ts ms st [] 0 hms
    exact ⟨st2, f2, by simpa using h2⟩
  · intro st3 dg fin rows aap hdg
    have hne : dg.isEmpty = false := by
      cases dg with
      | nil => exact absurd rfl hdg
      | cons a t => rfl
    unfold write_result
    simp [hne, apply_ite WriteResultM.to_be_write, apply_ite WriteResultM.dagger_guards,
      apply_ite WriteResultM.one_pc_commit_ts, apply_ite WriteResultM.daggers]

theorem prewrite_keyisdaggered_collected_witness :
    (∃ st2 f2, prewriteLoop [] 5 [exMutDaggered] exSt1pc [] 0 =
        Except.ok (st2, daggeredKeys [exMutDaggered], f2))
    ∧ ∀ (st3 : PrewriteSt) (dg : List Nat) (fin rows : Nat) (aap : Bool),
        dg ≠ [] →
        (write_result st3 dg fin rows aap).to_be_write = []
        ∧ (write_result st3 dg fin rows aap).dagger_guards = []
        ∧ (write_result st3 dg fin rows aap).one_pc_commit_ts = 0
        ∧ (write_result st3 dg fin rows aap).daggers = dg :=
  prewrite_keyisdaggered_collected [] 5 [exMutDaggered] exSt1pc (by decide)

/-- C10: a successful prewrite (no collected key errors) reports the
accumulated final min_commit_ts in the result's min_commit_ts field only
when secondary_keys is present (async commit); without secondary keys the
reported min_commit_ts is zero, and for a 1PC prewrite the computed commit
timestamp is exposed solely through the one_pc_commit_ts field. -/
theorem prewrite_min_commit_ts_reporting (st : PrewriteSt) (final rows : Nat)
    (aap : Bool) :
    ((write_result st [] final rows aap).min_commit_ts =
      if st.secondary_keys.isSome then final else 0)
    ∧ (st.secondary_keys = none →
        (write_result st [] final rows aap).min_commit_ts = 0)
    ∧ (st.secondary_keys = none → st.try_one_pc = true →
        (write_result st [] final rows aap).one_pc_commit_ts = final) := by
  refine ⟨?_, ?_, ?_⟩
  · unfold write_result
    simp [apply_ite WriteResultM.min_commit_ts]
  · intro hs
    unfold write_result
    simp [hs, apply_ite WriteResultM.min_commit_ts]
  · intro hs ht
    unfold write_result one_pc_commit_ts
    simp [hs, ht, apply_ite WriteResultM.one_pc_commit_ts]

theorem prewrite_min_commit_ts_reporting_witness :
    (write_result exStOnePcNoSec [] 12 1 false).min_commit_ts = 0
    ∧ (write_result exStOnePcNoSec [] 12 1 false).one_pc_commit_ts = 12 :=
  ⟨(prewrite_min_commit_ts_reporting exStOnePcNoSec 12 1 false).2.1 rfl,
   (prewrite_min_commit_ts_reporting exStOnePcNoSec 12 1 false).2.2 rfl rfl⟩

end EinsteinDB
